import Mathlib

/-!
Verification development for GitAtomizer (`gitatomizer.py`).

The file embeds the two cores of the program:

* `get_latest_commits` — the bounded multi-head BFS over the commit graph
  (source lines 22–49), modelled over an association list mapping commit
  hashes to commit records;
* `AtomBuilder` — the streaming Atom-feed engine (source lines 84–259),
  modelled as a structure of effective hook functions together with
  standalone functions for each overridable default method body, and an
  `Except`-valued fragment producer mirroring `build_fragments`.

Hashes are modelled as natural numbers; Python text is modelled as
`List Char` where character-level manipulation matters and as `String`
elsewhere.
-/

/-! ### Data model

`Commit` mirrors the fields of a Dulwich commit object that the program
reads: `id` (hex hash), `parents`, `commit_time`, `commit_timezone`,
`author` and `message`.  A repository is an association list from hash to
commit record, modelling the repository-access collaborator
(`repo.commit(hash_)` = lookup, raising on a missing key). -/

structure Commit where
  id : Nat
  parents : List Nat
  commit_time : Int
  commit_timezone : Int
  author : List Char
  message : List Char
deriving Repr, DecidableEq

abbrev RepoMap := List (Nat × Commit)

/-- `repo.commit(hash_)`: resolve a commit id, `none` when the id is
unresolvable (Dulwich raises `KeyError`, a fatal resolution error). -/
def repoLookup : RepoMap → Nat → Option Commit
  | [], _ => none
  | (k, c) :: rest, h => if h = k then some c else repoLookup rest h

/-- The set of resolvable commit ids of a repository. -/
def repoKeys (repo : RepoMap) : Finset Nat := (repo.map Prod.fst).toFinset

/-! ### The frontier loop of `get_latest_commits` (source lines 33–45)

State: the `commits` accumulator, the `seen_hashes` set and the FIFO
`queue` of `(hash, depth)` pairs.  Each iteration pops the front pair,
skips it when already seen, otherwise resolves the commit (aborting with
`none` when resolution fails), appends it, and — when `depth < max_count`
— enqueues every parent at `depth + 1`.  Termination needs no assumption
on the graph: the measure is the number of resolvable ids not yet seen,
then the queue length. -/

def bfsLoop (repo : RepoMap) (max_count : Nat) :
    List Commit → Finset Nat → List (Nat × Nat) → Option (List Commit)
  | commits, _, [] => some commits
  | commits, seen, (hash_, depth) :: rest =>
    if hash_ ∈ seen then
      bfsLoop repo max_count commits seen rest
    else
      match _h : repoLookup repo hash_ with
      | none => none
      | some commit =>
          bfsLoop repo max_count (commits ++ [commit]) (insert hash_ seen)
            (rest ++ (if depth < max_count then
              commit.parents.map (fun p => (p, depth + 1)) else []))
termination_by _ seen queue => ((repoKeys repo \ seen).card, queue.length)
decreasing_by
  · exact Prod.Lex.right _ (Nat.lt_succ_self _)
  · apply Prod.Lex.left
    apply Finset.card_lt_card
    constructor
    · exact Finset.sdiff_subset_sdiff le_rfl (Finset.subset_insert _ _)
    · intro hsub
      have hmem : hash_ ∈ repoKeys repo := by
        clear hsub
        induction repo with
        | nil => simp [repoLookup] at _h
        | cons p rest ih =>
          rcases p with ⟨k, c⟩
          by_cases hk : hash_ = k
          · subst hk
            simp [repoKeys]
          · simp only [repoLookup, if_neg hk] at _h
            have := ih _h
            simp [repoKeys] at this ⊢
            exact Or.inr this
      have h1 : hash_ ∈ repoKeys repo \ seen := Finset.mem_sdiff.mpr ⟨hmem, by assumption⟩
      have h2 := hsub h1
      simp at h2

/-- The Python sort comparator: `commits.sort(key=…commit_time, reverse=True)`
sorts by `commit_time` descending (stable). -/
def laterFirst (a b : Commit) : Bool := decide (b.commit_time ≤ a.commit_time)

/-- `get_latest_commits(repo, max_count, heads)` (source lines 22–49) with
the heads passed explicitly.  Runs the frontier loop from `(head, 0)` for
every head, then sorts by `commit_time` descending and keeps the first
`max_count` commits.  `none` models the fatal resolution error. -/
def get_latest_commits (repo : RepoMap) (heads : List Nat) (max_count : Nat := 10) :
    Option (List Commit) :=
  (bfsLoop repo max_count [] ∅ (heads.map (fun h => (h, 0)))).map
    (fun commits => (commits.mergeSort laterFirst).take max_count)

/-! ### Fuel-indexed frontier loop (for the termination claim)

The same loop, but consuming one unit of fuel per iteration; `none` means
the fuel ran out.  Relating it to the total function `bfsLoop` shows the
loop finishes within some finite number of iterations on every input,
including repositories whose parent pointers form self-loops or cycles. -/

def bfsLoopFuel (repo : RepoMap) (max_count : Nat) :
    Nat → List Commit → Finset Nat → List (Nat × Nat) →
    Option (Option (List Commit))
  | 0, _, _, _ => none
  | _ + 1, commits, _, [] => some (some commits)
  | fuel + 1, commits, seen, (hash_, depth) :: rest =>
    if hash_ ∈ seen then
      bfsLoopFuel repo max_count fuel commits seen rest
    else
      match repoLookup repo hash_ with
      | none => some none
      | some commit =>
          bfsLoopFuel repo max_count fuel (commits ++ [commit]) (insert hash_ seen)
            (rest ++ (if depth < max_count then
              commit.parents.map (fun p => (p, depth + 1)) else []))

/-! ### Reachability in the commit graph -/

/-- One parent edge: `y` is a parent id recorded in the commit record of `x`. -/
def ParentStep (repo : RepoMap) (x y : Nat) : Prop :=
  ∃ c, repoLookup repo x = some c ∧ y ∈ c.parents

/-- The ids reachable from the heads by following parent edges. -/
inductive Reaches (repo : RepoMap) (heads : List Nat) : Nat → Prop
  | head {h} : h ∈ heads → Reaches repo heads h
  | step {x y} : Reaches repo heads x → ParentStep repo x y → Reaches repo heads y

/-- Loop invariant of the frontier loop of `get_latest_commits`:
the accumulated commits carry pairwise-distinct ids matching the
`seen_hashes` set; everything seen is reachable; every queued pair
`(h, d)` is justified by a parent chain of length `d` from a head through
already-seen ids; every head is seen or still queued; and the parent
closure of `seen` escapes only into the queue — unless the loop has
already collected strictly more than `max_count` ids. -/
structure BfsInv (repo : RepoMap) (heads : List Nat) (max_count : Nat)
    (commits : List Commit) (seen : Finset Nat) (queue : List (Nat × Nat)) :
    Prop where
  ids_nodup : (commits.map Commit.id).Nodup
  ids_eq_seen : (commits.map Commit.id).toFinset = seen
  seen_reach : ∀ x ∈ seen, Reaches repo heads x
  queue_chain : ∀ p ∈ queue, ∃ pre : List Nat, pre.length = p.2 ∧
      List.Chain' (ParentStep repo) (pre ++ [p.1]) ∧
      (∀ x ∈ pre, x ∈ seen) ∧ pre.headD p.1 ∈ heads
  heads_covered : ∀ h ∈ heads, h ∈ seen ∨ ∃ d, (h, d) ∈ queue
  closed_or_big :
      (∀ x ∈ seen, ∀ y, ParentStep repo x y → y ∈ seen ∨ ∃ d, (y, d) ∈ queue) ∨
        max_count + 1 ≤ seen.card

/-! ### XML escaping (source lines 78–96)

`xml.sax.saxutils.escape` replaces `&` by `&amp;`, then `<` by `&lt;`,
then `>` by `&gt;`; the link attribute value additionally replaces `"`
by `&quot;` (source line 125). -/

def replaceChar (needle : Char) (rep : List Char) : List Char → List Char
  | [] => []
  | c :: rest => (if c = needle then rep else [c]) ++ replaceChar needle rep rest

/-- `xml.sax.saxutils.escape`: three sequential single-character replacements,
`&` first. -/
def xmlEscape (s : List Char) : List Char :=
  replaceChar '>' ['&', 'g', 't', ';']
    (replaceChar '<' ['&', 'l', 't', ';']
      (replaceChar '&' ['&', 'a', 'm', 'p', ';'] s))

/-- The attribute-value escape of `build_fragments` for `<link href="…"/>`:
`self.escape(link).replace('"', '&quot;')` (source line 125). -/
def attrEscape (s : List Char) : List Char :=
  replaceChar '"' ['&', 'q', 'u', 'o', 't', ';'] (xmlEscape s)

/-- Per-character specification of `xmlEscape` (proved equal below). -/
def escapeCharSpec (c : Char) : List Char :=
  if c = '&' then ['&', 'a', 'm', 'p', ';']
  else if c = '<' then ['&', 'l', 't', ';']
  else if c = '>' then ['&', 'g', 't', ';']
  else [c]

/-- Per-character specification of `attrEscape` (proved equal below). -/
def attrCharSpec (c : Char) : List Char :=
  if c = '&' then ['&', 'a', 'm', 'p', ';']
  else if c = '<' then ['&', 'l', 't', ';']
  else if c = '>' then ['&', 'g', 't', ';']
  else if c = '"' then ['&', 'q', 'u', 'o', 't', ';']
  else [c]

/-- A model XML text parser for escaped character data: ordinary characters
pass through; `&` must begin one of the entity references the program can
emit (`&amp;` `&lt;` `&gt;` `&quot;`), otherwise the data is rejected. -/
def unescapeXml : List Char → Option (List Char)
  | [] => some []
  | c :: rest =>
    if c = '&' then
      if rest.take 4 = ['a', 'm', 'p', ';'] then
        (unescapeXml (rest.drop 4)).map (fun l => '&' :: l)
      else if rest.take 3 = ['l', 't', ';'] then
        (unescapeXml (rest.drop 3)).map (fun l => '<' :: l)
      else if rest.take 3 = ['g', 't', ';'] then
        (unescapeXml (rest.drop 3)).map (fun l => '>' :: l)
      else if rest.take 5 = ['q', 'u', 'o', 't', ';'] then
        (unescapeXml (rest.drop 5)).map (fun l => '"' :: l)
      else none
    else (unescapeXml rest).map (fun l => c :: l)
termination_by l => l.length
decreasing_by all_goals (simp only [List.length_drop, List.length_cons]; omega)

/-! ### Python text helpers for the commit adapter (source lines 284–287) -/

/-- The ASCII whitespace set of Python's `str.strip()`. -/
def pyIsSpace (c : Char) : Bool :=
  c == ' ' || c == '\t' || c == '\n' || c == '\r' ||
    c == Char.ofNat 11 || c == Char.ofNat 12

/-- Python `str.strip()`: drop whitespace from both ends. -/
def pyStrip (s : List Char) : List Char :=
  ((s.dropWhile pyIsSpace).reverse.dropWhile pyIsSpace).reverse

/-- `author.split('<', 1)[0]`: everything strictly before the first `<`
(the whole string when there is none). -/
def splitBeforeLt (s : List Char) : List Char := s.takeWhile (fun c => !(c == '<'))

/-- `GitCommitsAtomBuilder.get_entry_author` (source lines 284–287):
`commit.author.split('<', 1)[0].strip()`. -/
def GitCommitsAtomBuilder.get_entry_author (commit : Commit) : List Char :=
  pyStrip (splitBeforeLt commit.author)

/-! ### The Atom builder engine (source lines 84–259)

The Python class is embedded as a structure of *effective* hook methods
(what `self.get_…` dispatches to), together with one standalone function
per overridable default method body.  Hooks that may raise are
`Except`-valued; optional text values are `Option String`, and Python's
truthiness test `if value:` is `pyTruthy` (both `None` and `''` are
falsy). -/

inductive AtomError
  | notImplementedError
  | valueError
deriving Repr, DecidableEq

/-- A Python timezone-aware datetime as built by `parse_timestamp`:
a POSIX instant with a fixed UTC offset in seconds. -/
structure PyDateTime where
  seconds : Int
  offset : Int
deriving Repr, DecidableEq

/-- `parse_timestamp` (source lines 68–75). -/
def parse_timestamp (timestamp timezone : Int) : PyDateTime :=
  ⟨timestamp, timezone⟩

/-- Modelled from the spec: stand-in for Python `datetime.isoformat()`
(stdlib behaviour outside this repository), which renders the instant
with its originally supplied fixed offset; the model fixes a definite
textual form determined by the instant and the offset. -/
def PyDateTime.isoformat (d : PyDateTime) : String :=
  toString d.seconds ++ "@" ++ toString d.offset

/-- Python truthiness of an optional string: `None` and `''` are falsy. -/
def pyTruthy : Option String → Bool
  | none => false
  | some s => !s.isEmpty

/-- Python `max(...)` over aware datetimes: they compare by instant,
`max` keeps the earliest of equals, and an empty sequence raises
`ValueError`. -/
def pyMaxDateTime : List PyDateTime → Except AtomError PyDateTime
  | [] => .error .valueError
  | x :: rest =>
      .ok (rest.foldl (fun acc y => if acc.seconds < y.seconds then y else acc) x)

structure AtomBuilder (E : Type) where
  get_entries : List E
  get_feed_title : String
  get_feed_id : Except AtomError String
  get_feed_updated : Except AtomError PyDateTime
  get_feed_link : Option String
  get_entry_title : E → String
  get_entry_id : E → Except AtomError String
  get_entry_updated : E → PyDateTime
  get_entry_link : E → Option String
  get_entry_author : E → Option String
  get_entry_text_content : E → Option String
  get_entry_html_content : E → Option String

/-- `AtomBuilder.escape` (source lines 92–96). -/
def AtomBuilder.escape (value : String) : String := ⟨xmlEscape value.data⟩

/-- The escaped attribute value of source line 125. -/
def AtomBuilder.escapeAttr (value : String) : String := ⟨attrEscape value.data⟩

/-- Default body of `AtomBuilder.get_entry_id` (source lines 189–201):
the entry's link when truthy, otherwise `raise NotImplementedError`. -/
def AtomBuilder.default_get_entry_id {E : Type} (get_entry_link : E → Option String)
    (entry : E) : Except AtomError String :=
  let link := get_entry_link entry
  if pyTruthy link then .ok (link.getD "") else .error .notImplementedError

/-- Default body of `AtomBuilder.get_feed_id` (source lines 169–180). -/
def AtomBuilder.default_get_feed_id (get_feed_link : Option String) :
    Except AtomError String :=
  if pyTruthy get_feed_link then .ok (get_feed_link.getD "")
  else .error .notImplementedError

/-- Default body of `AtomBuilder.get_feed_updated` (source lines 152–159):
`max(self.get_entry_updated(entry) for entry in self.get_entries())`. -/
def AtomBuilder.default_get_feed_updated {E : Type} (get_entries : List E)
    (get_entry_updated : E → PyDateTime) : Except AtomError PyDateTime :=
  pyMaxDateTime (get_entries.map get_entry_updated)

/-- Default body of `AtomBuilder.get_entry_html_content`
(source lines 247–259): the text content wrapped in `<pre>` when truthy. -/
def AtomBuilder.default_get_entry_html_content {E : Type}
    (get_entry_text_content : E → Option String) (entry : E) : Option String :=
  let text := get_entry_text_content entry
  if pyTruthy text then some ("<pre>" ++ AtomBuilder.escape (text.getD "") ++ "</pre>")
  else none

/-- The fragments of one `<entry>` block of `build_fragments`
(source lines 114–137), in yield order. -/
def AtomBuilder.entryFragments {E : Type} (b : AtomBuilder E) (entry : E) :
    Except AtomError (List String) := do
  let eid ← b.get_entry_id entry
  pure (["  <entry>\n    <id>", AtomBuilder.escape eid, "</id>\n    <title>",
      AtomBuilder.escape (b.get_entry_title entry), "</title>\n    <updated>",
      (b.get_entry_updated entry).isoformat, "</updated>\n"]
    ++ (let link := b.get_entry_link entry
        if pyTruthy link then
          ["    <link href=\"", AtomBuilder.escapeAttr (link.getD ""), "\"/>\n"]
        else [])
    ++ (let author := b.get_entry_author entry
        if pyTruthy author then
          ["    <author><name>", AtomBuilder.escape (author.getD ""), "</name></author>\n"]
        else [])
    ++ (let content := b.get_entry_html_content entry
        if pyTruthy content then
          ["    <content type=\"html\">", AtomBuilder.escape (content.getD ""), "</content>\n"]
        else [])
    ++ ["  </entry>\n"])

/-- The fragment blocks of the entry loop (source lines 114–137), one
block per entry in `get_entries()` order, aborting at the first raising
hook. -/
def AtomBuilder.entriesFragments {E : Type} (b : AtomBuilder E) :
    List E → Except AtomError (List (List String))
  | [] => pure []
  | e :: rest => do
      let y ← AtomBuilder.entryFragments b e
      let ys ← AtomBuilder.entriesFragments b rest
      pure (y :: ys)

/-- `AtomBuilder.build_fragments` (source lines 98–139): the fragment
stream, in yield order; a raising hook aborts the stream. -/
def AtomBuilder.build_fragments {E : Type} (b : AtomBuilder E) :
    Except AtomError (List String) := do
  let fid ← b.get_feed_id
  let fupd ← b.get_feed_updated
  let entryParts ← AtomBuilder.entriesFragments b b.get_entries
  pure (["<?xml version=\"1.0\" encoding=\"utf-8\"?>\n<feed xmlns=\"http://www.w3.org/2005/Atom\">\n  <id>",
      AtomBuilder.escape fid, "</id>\n  <title>",
      AtomBuilder.escape b.get_feed_title, "</title>\n  <updated>",
      fupd.isoformat, "</updated>\n"]
    ++ (let link := b.get_feed_link
        if pyTruthy link then
          ["  <link>", AtomBuilder.escape (link.getD ""), "</link>\n"]
        else [])
    ++ entryParts.flatten
    ++ ["</feed>"])

/-- `''.join(...)`: concatenation of a fragment list. -/
def concatList : List String → String
  | [] => ""
  | s :: rest => s ++ concatList rest

/-- `AtomBuilder.build` (source lines 89–90): `''.join(self.build_fragments())`. -/
def AtomBuilder.build {E : Type} (b : AtomBuilder E) : Except AtomError String :=
  (AtomBuilder.build_fragments b).map concatList

/-! ### One-shot document assembly, from the spec (for the refinement claim)

The spec's §6 Output states the document may be "returned as one
concatenated value or written incrementally fragment-by-fragment; both
must yield byte-identical output for the same input".  The following
definitions follow the spec's serialization steps (§4.2) directly,
producing one string with no intermediate fragment list. -/

/-- Modelled from the spec (§4.2 step 3): one `<entry>` element as a single
string. -/
def specEntryXml {E : Type} (b : AtomBuilder E) (entry : E) :
    Except AtomError String := do
  let eid ← b.get_entry_id entry
  pure ("  <entry>\n    <id>" ++ AtomBuilder.escape eid ++ "</id>\n    <title>"
    ++ AtomBuilder.escape (b.get_entry_title entry) ++ "</title>\n    <updated>"
    ++ (b.get_entry_updated entry).isoformat ++ "</updated>\n"
    ++ (let link := b.get_entry_link entry
        if pyTruthy link then
          "    <link href=\"" ++ AtomBuilder.escapeAttr (link.getD "") ++ "\"/>\n"
        else "")
    ++ (let author := b.get_entry_author entry
        if pyTruthy author then
          "    <author><name>" ++ AtomBuilder.escape (author.getD "") ++ "</name></author>\n"
        else "")
    ++ (let content := b.get_entry_html_content entry
        if pyTruthy content then
          "    <content type=\"html\">" ++ AtomBuilder.escape (content.getD "") ++ "</content>\n"
        else "")
    ++ "  </entry>\n")

/-- Modelled from the spec (§4.2 step 3): the entry elements in
`get_entries()` order, concatenated. -/
def specEntriesXml {E : Type} (b : AtomBuilder E) : List E → Except AtomError String
  | [] => pure ""
  | e :: rest => do
      let x ← specEntryXml b e
      let xs ← specEntriesXml b rest
      pure (x ++ xs)

/-- Modelled from the spec (§4.2, §6 Output): the whole Atom document as
one concatenated value. -/
def specDocument {E : Type} (b : AtomBuilder E) : Except AtomError String := do
  let fid ← b.get_feed_id
  let fupd ← b.get_feed_updated
  let entriesXml ← specEntriesXml b b.get_entries
  pure ("<?xml version=\"1.0\" encoding=\"utf-8\"?>\n<feed xmlns=\"http://www.w3.org/2005/Atom\">\n  <id>"
    ++ AtomBuilder.escape fid ++ "</id>\n  <title>"
    ++ AtomBuilder.escape b.get_feed_title ++ "</title>\n  <updated>"
    ++ fupd.isoformat ++ "</updated>\n"
    ++ (let link := b.get_feed_link
        if pyTruthy link then
          "  <link>" ++ AtomBuilder.escape (link.getD "") ++ "</link>\n"
        else "")
    ++ entriesXml
    ++ "</feed>")

/-! ### Hook-call tracing (for the lazy-evaluation claim)

A `GitCommitsAtomBuilder`-shaped builder leaves `get_feed_id`,
`get_feed_updated` and `get_entry_html_content` at their `AtomBuilder`
defaults and overrides the remaining hooks with total accessors.  Each
method model returns its value together with the hook invocations it
performs (its own invocation first, then its nested calls); the engine
model replays `build_fragments` in evaluation order, accumulating events
and stopping where the generator would raise.  Entry-level events carry
the position of the entry they were invoked for. -/

inductive HookEvent
  | entries | feedTitle | feedId | feedLink | feedUpdated
  | entryTitle (i : Nat) | entryId (i : Nat) | entryUpdated (i : Nat)
  | entryLink (i : Nat) | entryAuthor (i : Nat)
  | entryTextContent (i : Nat) | entryHtmlContent (i : Nat)
deriving Repr, DecidableEq

structure GitShapedBuilder (E : Type) where
  entries : List E
  feed_title : String
  feed_link : Option String
  entry_title : E → String
  entry_id : E → String
  entry_updated : E → PyDateTime
  entry_link : E → Option String
  entry_author : E → Option String
  entry_text_content : E → Option String

/-- Overridden `get_entries` (source lines 270–271). -/
def GitShapedBuilder.m_entries {E : Type} (b : GitShapedBuilder E) :
    List E × List HookEvent :=
  (b.entries, [HookEvent.entries])

/-- Overridden `get_feed_link` (source lines 327–328). -/
def GitShapedBuilder.m_feed_link {E : Type} (b : GitShapedBuilder E) :
    Option String × List HookEvent :=
  (b.feed_link, [HookEvent.feedLink])

/-- `get_feed_id` left at its `AtomBuilder` default (source lines 169–180):
its body calls `get_feed_link`. -/
def GitShapedBuilder.m_feed_id {E : Type} (b : GitShapedBuilder E) :
    Except AtomError String × List HookEvent :=
  let (link, ev) := GitShapedBuilder.m_feed_link b
  ((if pyTruthy link then .ok (link.getD "") else .error .notImplementedError),
    HookEvent.feedId :: ev)

/-- `get_feed_updated` left at its `AtomBuilder` default
(source lines 152–159): its body consumes `get_entries()` and calls
`get_entry_updated` once per entry. -/
def GitShapedBuilder.m_feed_updated {E : Type} (b : GitShapedBuilder E) :
    Except AtomError PyDateTime × List HookEvent :=
  let (es, ev) := GitShapedBuilder.m_entries b
  (pyMaxDateTime (es.map b.entry_updated),
    HookEvent.feedUpdated :: (ev ++ (List.range es.length).map HookEvent.entryUpdated))

/-- `get_entry_html_content` left at its `AtomBuilder` default
(source lines 247–259): its body calls `get_entry_text_content`. -/
def GitShapedBuilder.m_entry_html_content {E : Type} (b : GitShapedBuilder E)
    (i : Nat) (e : E) : Option String × List HookEvent :=
  (AtomBuilder.default_get_entry_html_content b.entry_text_content e,
    [HookEvent.entryHtmlContent i, HookEvent.entryTextContent i])

/-- The hook events of one pass of the entry loop body
(source lines 114–137), in evaluation order: id, title, updated, link,
author, html content (which consults the text content). -/
def GitShapedBuilder.entryEvents {E : Type} (b : GitShapedBuilder E)
    (i : Nat) (e : E) : List HookEvent :=
  [HookEvent.entryId i, HookEvent.entryTitle i, HookEvent.entryUpdated i,
    HookEvent.entryLink i, HookEvent.entryAuthor i]
    ++ (GitShapedBuilder.m_entry_html_content b i e).2

/-- The hook events of one whole `build_fragments` run (source
lines 98–139) for a `GitCommitsAtomBuilder`-shaped builder, in evaluation
order, truncated where the run would raise. -/
def GitShapedBuilder.buildEvents {E : Type} (b : GitShapedBuilder E) :
    List HookEvent :=
  let (fid, ev1) := GitShapedBuilder.m_feed_id b
  match fid with
  | .error _ => ev1
  | .ok _ =>
    let ev2 := [HookEvent.feedTitle]
    let (fupd, ev3) := GitShapedBuilder.m_feed_updated b
    match fupd with
    | .error _ => ev1 ++ ev2 ++ ev3
    | .ok _ =>
      let (_, ev4) := GitShapedBuilder.m_feed_link b
      let (es, ev5) := GitShapedBuilder.m_entries b
      ev1 ++ ev2 ++ ev3 ++ ev4 ++ ev5
        ++ es.enum.flatMap (fun p => GitShapedBuilder.entryEvents b p.1 p.2)

/-! ### Concrete data used by the witnesses -/

def demoC1 : Commit := ⟨1, [2], 10, 0, [], []⟩

def demoC2 : Commit := ⟨2, [], 20, 0, [], []⟩

def demoRepo : RepoMap := [(1, demoC1), (2, demoC2)]

/-- A builder whose optional entry hooks all return the empty string. -/
def demoEmptyHooks : AtomBuilder Unit :=
  ⟨[()], "t", Except.ok "fid", Except.ok ⟨0, 0⟩, none,
    fun _ => "T", fun _ => Except.ok "E", fun _ => ⟨0, 0⟩,
    fun _ => some "", fun _ => some "", fun _ => some "", fun _ => some ""⟩

/-- A one-entry builder with all optional entry hooks absent and a feed
link present, used to count hook calls. -/
def demoTraced : GitShapedBuilder Unit :=
  ⟨[()], "t", some "L", fun _ => "T", fun _ => "I", fun _ => ⟨0, 0⟩,
    fun _ => none, fun _ => none, fun _ => none⟩

unseal List.merge List.mergeSort

/-! ## Helper lemmas for the frontier loop -/

theorem repoLookup_mem {repo : RepoMap} {h : Nat} {c : Commit}
    (hl : repoLookup repo h = some c) : (h, c) ∈ repo := by
  induction repo with
  | nil => simp [repoLookup] at hl
  | cons p rest ih =>
    rcases p with ⟨k, c'⟩
    by_cases hk : h = k
    · subst hk
      simp only [repoLookup, if_true, eq_self_iff_true, Option.some.injEq] at hl
      subst hl
      exact List.mem_cons_self _ _
    · simp only [repoLookup, if_neg hk] at hl
      exact List.mem_cons_of_mem _ (ih hl)

theorem headD_append_singleton {l : List Nat} {a b : Nat} :
    (l ++ [a]).headD b = l.headD a := by
  cases l <;> simp

/-- Along a `ParentStep` chain starting at a reachable id, every element is
reachable. -/
theorem chain_reaches_of_head {repo : RepoMap} {heads : List Nat} :
    ∀ (l : List Nat) (a : Nat), List.Chain' (ParentStep repo) (a :: l) →
      Reaches repo heads a → ∀ x ∈ a :: l, Reaches repo heads x := by
  intro l
  induction l with
  | nil =>
    intro a _ ha x hx
    simp at hx
    subst hx
    exact ha
  | cons b t ih =>
    intro a hchain ha x hx
    rw [List.chain'_cons] at hchain
    have hb : Reaches repo heads b := Reaches.step ha hchain.1
    rcases List.mem_cons.mp hx with rfl | hx'
    · exact ha
    · exact ih b hchain.2 hb x hx'

/-- The last element of a justified queue chain is reachable. -/
theorem chain_reaches {repo : RepoMap} {heads : List Nat}
    {pre : List Nat} {x : Nat}
    (hchain : List.Chain' (ParentStep repo) (pre ++ [x]))
    (hhead : pre.headD x ∈ heads) : Reaches repo heads x := by
  cases pre with
  | nil =>
    exact Reaches.head hhead
  | cons a t =>
    simp only [List.headD_cons] at hhead
    have := chain_reaches_of_head (t ++ [x]) a hchain (Reaches.head hhead)
    exact this x (by simp)

/-- With a rank function witnessing acyclicity, a `ParentStep` chain has no
duplicate ids. -/
theorem chain_nodup {repo : RepoMap} {rank : Nat → Nat}
    (hrank : ∀ x y, ParentStep repo x y → rank y < rank x)
    {l : List Nat} (hchain : List.Chain' (ParentStep repo) l) : l.Nodup := by
  haveI : IsTrans Nat (fun a b => rank b < rank a) :=
    ⟨fun _ _ _ h1 h2 => lt_trans h2 h1⟩
  have h2 : List.Chain' (fun a b => rank b < rank a) l :=
    hchain.imp (fun a b hab => hrank a b hab)
  have h3 : List.Pairwise (fun a b => rank b < rank a) l :=
    List.chain'_iff_pairwise.mp h2
  exact h3.imp (fun hab => by
    intro heq
    subst heq
    exact lt_irrefl _ hab)

/-- A justified queue chain whose elements lie in `s` bounds the size of
`s` from below. -/
theorem chain_card_le {repo : RepoMap} {rank : Nat → Nat}
    (hrank : ∀ x y, ParentStep repo x y → rank y < rank x)
    {pre : List Nat} {x : Nat} {s : Finset Nat}
    (hchain : List.Chain' (ParentStep repo) (pre ++ [x]))
    (hmem : ∀ y ∈ pre ++ [x], y ∈ s) : pre.length + 1 ≤ s.card := by
  have hnd : (pre ++ [x]).Nodup := chain_nodup hrank hchain
  have hsub : (pre ++ [x]).toFinset ⊆ s := by
    intro y hy
    exact hmem y (List.mem_toFinset.mp hy)
  have := Finset.card_le_card hsub
  rw [List.toFinset_card_of_nodup hnd] at this
  simpa using this

/-- Soundness of the frontier loop: starting from an invariant state it
succeeds, collects pairwise-distinct reachable ids, and either collects
every reachable id or collects strictly more than `max_count` of them. -/
theorem bfsLoop_sound (repo : RepoMap) (heads : List Nat) (max_count : Nat)
    (rank : Nat → Nat)
    (hrank : ∀ x y, ParentStep repo x y → rank y < rank x)
    (hres : ∀ x, Reaches repo heads x → (repoLookup repo x).isSome)
    (hwf : ∀ p ∈ repo, Commit.id p.2 = p.1) :
    ∀ (commits : List Commit) (seen : Finset Nat) (queue : List (Nat × Nat)),
      BfsInv repo heads max_count commits seen queue →
      ∃ commits', bfsLoop repo max_count commits seen queue = some commits' ∧
        (commits'.map Commit.id).Nodup ∧
        (∀ x ∈ commits'.map Commit.id, Reaches repo heads x) ∧
        ((∀ x, Reaches repo heads x → x ∈ commits'.map Commit.id) ∨
          max_count + 1 ≤ commits'.length) := by
  intro commits seen queue
  induction commits, seen, queue using bfsLoop.induct repo max_count with
  | case1 commits seen =>
    intro hinv
    refine ⟨commits, by simp [bfsLoop], hinv.ids_nodup, ?_, ?_⟩
    · intro x hx
      have hx' : x ∈ (commits.map Commit.id).toFinset := List.mem_toFinset.mpr hx
      rw [hinv.ids_eq_seen] at hx'
      exact hinv.seen_reach x hx'
    · rcases hinv.closed_or_big with hclosed | hbig
      · left
        intro x hx
        have hsub : ∀ z, Reaches repo heads z → z ∈ seen := by
          intro z hz
          induction hz with
          | head hh =>
            rcases hinv.heads_covered _ hh with h' | ⟨d, hd⟩
            · exact h'
            · simp at hd
          | step _ hstep ihz =>
            rcases hclosed _ ihz _ hstep with h' | ⟨d, hd⟩
            · exact h'
            · simp at hd
        have := hsub x hx
        rw [← hinv.ids_eq_seen] at this
        exact List.mem_toFinset.mp this
      · right
        have hlen : (commits.map Commit.id).length = seen.card := by
          rw [← hinv.ids_eq_seen, List.toFinset_card_of_nodup hinv.ids_nodup]
        simp only [List.length_map] at hlen
        omega
  | case2 commits seen hash_ depth rest hseen ih =>
    intro hinv
    have hinv' : BfsInv repo heads max_count commits seen rest := by
      constructor
      · exact hinv.ids_nodup
      · exact hinv.ids_eq_seen
      · exact hinv.seen_reach
      · intro p hp
        exact hinv.queue_chain p (List.mem_cons_of_mem _ hp)
      · intro h hh
        rcases hinv.heads_covered h hh with h' | ⟨d, hd⟩
        · exact Or.inl h'
        · rcases List.mem_cons.mp hd with heq | hmem
          · rw [Prod.mk.injEq] at heq
            left
            rw [heq.1]
            exact hseen
          · exact Or.inr ⟨d, hmem⟩
      · rcases hinv.closed_or_big with hclosed | hbig
        · left
          intro x hx y hy
          rcases hclosed x hx y hy with h' | ⟨d, hd⟩
          · exact Or.inl h'
          · rcases List.mem_cons.mp hd with heq | hmem
            · rw [Prod.mk.injEq] at heq
              left
              rw [heq.1]
              exact hseen
            · exact Or.inr ⟨d, hmem⟩
        · exact Or.inr hbig
    obtain ⟨c', heq, hrest⟩ := ih hinv'
    refine ⟨c', ?_, hrest⟩
    rw [← heq]
    simp only [bfsLoop]
    rw [if_pos hseen]
  | case3 commits seen hash_ depth rest hseen hlook =>
    intro hinv
    exfalso
    obtain ⟨pre, hlen, hchain, hmem, hhead⟩ :=
      hinv.queue_chain (hash_, depth) (List.mem_cons_self _ _)
    have hreach : Reaches repo heads hash_ := chain_reaches hchain hhead
    have := hres hash_ hreach
    rw [hlook] at this
    simp at this
  | case4 commits seen hash_ depth rest hseen commit hlook ih =>
    intro hinv
    have hid : commit.id = hash_ := hwf _ (repoLookup_mem hlook)
    obtain ⟨pre, hlen, hchain, hpremem, hhead⟩ :=
      hinv.queue_chain (hash_, depth) (List.mem_cons_self _ _)
    have hnotin : hash_ ∉ commits.map Commit.id := by
      intro hx
      have hx' : hash_ ∈ (commits.map Commit.id).toFinset := List.mem_toFinset.mpr hx
      rw [hinv.ids_eq_seen] at hx'
      exact hseen hx'
    have hchainext : List.Chain' (ParentStep repo) ((pre ++ [hash_])) := hchain
    have hinv' : BfsInv repo heads max_count (commits ++ [commit])
        (insert hash_ seen)
        (rest ++ (if depth < max_count then
          commit.parents.map (fun p => (p, depth + 1)) else [])) := by
      constructor
      · rw [List.map_append]
        simp only [List.map_cons, List.map_nil, hid]
        rw [List.nodup_append]
        exact ⟨hinv.ids_nodup, List.nodup_singleton _, by
          intro a ha hb
          simp at hb
          subst hb
          exact hnotin ha⟩
      · ext y
        rw [Finset.mem_insert, ← hinv.ids_eq_seen]
        simp [hid, or_comm]
      · intro x hx
        rcases Finset.mem_insert.mp hx with rfl | hx'
        · exact chain_reaches hchain hhead
        · exact hinv.seen_reach x hx'
      · intro p hp
        rcases List.mem_append.mp hp with hp' | hp'
        · obtain ⟨pre', hlen', hchain', hmem', hhead'⟩ :=
            hinv.queue_chain p (List.mem_cons_of_mem _ hp')
          exact ⟨pre', hlen', hchain', fun x hx =>
            Finset.mem_insert_of_mem (hmem' x hx), hhead'⟩
        · by_cases hdep : depth < max_count
          · rw [if_pos hdep] at hp'
            obtain ⟨par, hpar, rfl⟩ := List.mem_map.mp hp'
            refine ⟨pre ++ [hash_], by simp [hlen], ?_, ?_, ?_⟩
            · rw [List.chain'_append]
              refine ⟨hchain, List.chain'_singleton _, ?_⟩
              intro x hx y hy
              simp only [List.getLast?_concat, Option.mem_def, Option.some.injEq] at hx
              simp only [List.head?_cons, Option.mem_def, Option.some.injEq] at hy
              subst hx
              subst hy
              exact ⟨commit, hlook, hpar⟩
            · intro x hx
              rcases List.mem_append.mp hx with hx' | hx'
              · exact Finset.mem_insert_of_mem (hpremem x hx')
              · simp at hx'
                subst hx'
                exact Finset.mem_insert_self _ _
            · rw [headD_append_singleton]
              exact hhead
          · rw [if_neg hdep] at hp'
            simp at hp'
      · intro h hh
        rcases hinv.heads_covered h hh with h' | ⟨d, hd⟩
        · exact Or.inl (Finset.mem_insert_of_mem h')
        · rcases List.mem_cons.mp hd with heq | hmem
          · rw [Prod.mk.injEq] at heq
            left
            rw [heq.1]
            exact Finset.mem_insert_self _ _
          · exact Or.inr ⟨d, List.mem_append_left _ hmem⟩
      · rcases hinv.closed_or_big with hclosed | hbig
        · by_cases hdep : depth < max_count
          · left
            intro x hx y hy
            rcases Finset.mem_insert.mp hx with rfl | hx'
            · obtain ⟨c', hl', hy'⟩ := hy
              rw [hlook] at hl'
              injection hl' with hl''
              subst hl''
              refine Or.inr ⟨depth + 1, List.mem_append_right _ ?_⟩
              rw [if_pos hdep]
              exact List.mem_map.mpr ⟨y, hy', rfl⟩
            · rcases hclosed x hx' y hy with h' | ⟨d, hd⟩
              · exact Or.inl (Finset.mem_insert_of_mem h')
              · rcases List.mem_cons.mp hd with heq | hmem
                · rw [Prod.mk.injEq] at heq
                  left
                  rw [heq.1]
                  exact Finset.mem_insert_self _ _
                · exact Or.inr ⟨d, List.mem_append_left _ hmem⟩
          · right
            have hcard : pre.length + 1 ≤ (insert hash_ seen).card := by
              refine chain_card_le hrank hchain ?_
              intro y hy
              rcases List.mem_append.mp hy with hy' | hy'
              · exact Finset.mem_insert_of_mem (hpremem y hy')
              · simp at hy'
                subst hy'
                exact Finset.mem_insert_self _ _
            omega
        · right
          calc max_count + 1 ≤ seen.card := hbig
            _ ≤ (insert hash_ seen).card := Finset.card_le_card (Finset.subset_insert _ _)
    simp only [dite_eq_ite] at ih
    obtain ⟨c', heq, hrest⟩ := ih hinv'
    refine ⟨c', ?_, hrest⟩
    rw [← heq]
    simp only [bfsLoop]
    rw [if_neg hseen]
    split
    · rename_i heq'
      rw [hlook] at heq'
      cases heq'
    · rename_i c'' heq'
      rw [hlook] at heq'
      injection heq' with heq''
      subst heq''
      simp

/-- C1: `get_latest_commits` returns a sequence of length
`min max_count S.card` where `S` is the set of distinct reachable commit
ids, with pairwise-distinct ids.  Hypotheses: `rank` witnesses that the
commit graph is a DAG (a topological rank strictly decreasing along
parent edges), every reachable id resolves, and the repository maps each
key to a record carrying that key as its id. -/
theorem get_latest_commits_length_distinct
    (repo : RepoMap) (heads : List Nat) (max_count : Nat) (S : Finset Nat)
    (rank : Nat → Nat)
    (hrank : ∀ x y, ParentStep repo x y → rank y < rank x)
    (hwf : ∀ p ∈ repo, Commit.id p.2 = p.1)
    (hS : ∀ x, x ∈ S ↔ Reaches repo heads x)
    (hres : ∀ x ∈ S, (repoLookup repo x).isSome) :
    ∃ l, get_latest_commits repo heads max_count = some l ∧
      l.length = min max_count S.card ∧ (l.map Commit.id).Nodup := by
  have hres' : ∀ x, Reaches repo heads x → (repoLookup repo x).isSome :=
    fun x hx => hres x ((hS x).mpr hx)
  have hinit : BfsInv repo heads max_count [] ∅ (heads.map (fun h => (h, 0))) := by
    constructor
    · simp
    · simp
    · simp
    · intro p hp
      obtain ⟨h, hh, rfl⟩ := List.mem_map.mp hp
      exact ⟨[], rfl, List.chain'_singleton _, by simp, hh⟩
    · intro h hh
      exact Or.inr ⟨0, List.mem_map.mpr ⟨h, hh, rfl⟩⟩
    · left
      intro x hx
      simp at hx
  obtain ⟨commits', heq, hnodup, hreachall, hdisj⟩ :=
    bfsLoop_sound repo heads max_count rank hrank hres' hwf _ _ _ hinit
  refine ⟨(commits'.mergeSort laterFirst).take max_count, ?_, ?_, ?_⟩
  · rw [get_latest_commits, heq, Option.map_some']
  · have hperm : List.Perm (commits'.mergeSort laterFirst) commits' := List.mergeSort_perm _ _
    rw [List.length_take, hperm.length_eq]
    have hsub : (commits'.map Commit.id).toFinset ⊆ S := by
      intro x hx
      exact (hS x).mpr (hreachall x (List.mem_toFinset.mp hx))
    have hcardlist : (commits'.map Commit.id).toFinset.card = commits'.length := by
      rw [List.toFinset_card_of_nodup hnodup, List.length_map]
    rcases hdisj with hall | hbig
    · have hSeq : (commits'.map Commit.id).toFinset = S := by
        apply Finset.Subset.antisymm hsub
        intro x hx
        exact List.mem_toFinset.mpr (hall x ((hS x).mp hx))
      rw [← hSeq, hcardlist]
    · have hScard : max_count + 1 ≤ S.card := by
        have := Finset.card_le_card hsub
        omega
      omega
  · have hperm : List.Perm ((commits'.mergeSort laterFirst).map Commit.id)
        (commits'.map Commit.id) :=
      (List.mergeSort_perm _ _).map _
    have hnodup' : ((commits'.mergeSort laterFirst).map Commit.id).Nodup :=
      hperm.nodup_iff.mpr hnodup
    have hsubl : List.Sublist (((commits'.mergeSort laterFirst).take max_count).map Commit.id)
        ((commits'.mergeSort laterFirst).map Commit.id) :=
      (List.take_sublist _ _).map _
    exact hnodup'.sublist hsubl

/-- C2: whenever `get_latest_commits` succeeds, the returned sequence is
sorted by commit timestamp in descending order (every earlier commit's
timestamp is greater than or equal to every later one's). -/
theorem get_latest_commits_sorted (repo : RepoMap) (heads : List Nat)
    (max_count : Nat) (l : List Commit)
    (h : get_latest_commits repo heads max_count = some l) :
    l.Pairwise (fun a b => b.commit_time ≤ a.commit_time) := by
  rw [get_latest_commits] at h
  cases heq : bfsLoop repo max_count [] ∅ (heads.map (fun h => (h, 0))) with
  | none =>
    rw [heq] at h
    simp at h
  | some commits =>
    rw [heq] at h
    simp only [Option.map_some', Option.some.injEq] at h
    subst h
    have htrans : ∀ a b c : Commit, laterFirst a b = true → laterFirst b c = true →
        laterFirst a c = true := by
      intro a b c hab hbc
      simp only [laterFirst, decide_eq_true_eq] at hab hbc ⊢
      omega
    have htotal : ∀ a b : Commit, (laterFirst a b || laterFirst b a) = true := by
      intro a b
      simp only [laterFirst, Bool.or_eq_true, decide_eq_true_eq]
      omega
    have hs := List.sorted_mergeSort htrans htotal commits
    have hs' : (commits.mergeSort laterFirst).Pairwise
        (fun a b => b.commit_time ≤ a.commit_time) := by
      refine hs.imp ?_
      intro a b hab
      simpa [laterFirst] using hab
    exact List.Pairwise.sublist (List.take_sublist _ _) hs'

/-- C7: the frontier loop terminates on every input — for every repository
mapping (including malformed data with self-loops or cycles among parent
ids), every accumulator, seen-set and queue, some finite amount of fuel
makes the step-counting loop finish with the total loop's answer. -/
theorem bfsLoop_terminates (repo : RepoMap) (max_count : Nat)
    (commits : List Commit) (seen : Finset Nat) (queue : List (Nat × Nat)) :
    ∃ n, bfsLoopFuel repo max_count n commits seen queue =
      some (bfsLoop repo max_count commits seen queue) := by
  induction commits, seen, queue using bfsLoop.induct repo max_count with
  | case1 commits seen =>
    exact ⟨1, by simp [bfsLoopFuel, bfsLoop]⟩
  | case2 commits seen hash_ depth rest hseen ih =>
    obtain ⟨n, hn⟩ := ih
    refine ⟨n + 1, ?_⟩
    have hstep : bfsLoop repo max_count commits seen ((hash_, depth) :: rest) =
        bfsLoop repo max_count commits seen rest := by
      simp only [bfsLoop]
      rw [if_pos hseen]
    rw [hstep]
    simp only [bfsLoopFuel]
    rw [if_pos hseen]
    exact hn
  | case3 commits seen hash_ depth rest hseen hlook =>
    refine ⟨1, ?_⟩
    have hstep : bfsLoop repo max_count commits seen ((hash_, depth) :: rest) = none := by
      simp only [bfsLoop]
      rw [if_neg hseen]
      split
      · rfl
      · rename_i c'' heq'
        rw [hlook] at heq'
        cases heq'
    rw [hstep]
    simp only [bfsLoopFuel]
    rw [if_neg hseen, hlook]
  | case4 commits seen hash_ depth rest hseen commit hlook ih =>
    simp only [dite_eq_ite] at ih
    obtain ⟨n, hn⟩ := ih
    refine ⟨n + 1, ?_⟩
    have hstep : bfsLoop repo max_count commits seen ((hash_, depth) :: rest) =
        bfsLoop repo max_count (commits ++ [commit]) (insert hash_ seen)
          (rest ++ (if depth < max_count then
            commit.parents.map (fun p => (p, depth + 1)) else [])) := by
      simp only [bfsLoop]
      rw [if_neg hseen]
      split
      · rename_i heq'
        rw [hlook] at heq'
        cases heq'
      · rename_i c'' heq'
        rw [hlook] at heq'
        injection heq' with heq''
        subst heq''
        rfl
    rw [hstep]
    simp only [bfsLoopFuel]
    rw [if_neg hseen, hlook]
    exact hn


/-- Witness for the selection claim: on a two-commit repository with one
head, the theorem applies and yields a sequence of length
`min 10 2 = 2` with distinct ids. -/
theorem get_latest_commits_length_distinct_witness :
    ∃ l, get_latest_commits demoRepo [1] 10 = some l ∧
      l.length = min 10 ({1, 2} : Finset Nat).card ∧ (l.map Commit.id).Nodup := by
  refine get_latest_commits_length_distinct demoRepo [1] 10 {1, 2}
    (fun x => 2 - x) ?_ ?_ ?_ ?_
  · intro x y hps
    obtain ⟨c, hl, hp⟩ := hps
    have hm := repoLookup_mem hl
    simp [demoRepo] at hm
    rcases hm with ⟨rfl, rfl⟩ | ⟨rfl, rfl⟩
    · simp [demoC1] at hp
      subst hp
      decide
    · simp [demoC2] at hp
  · intro p hp
    simp [demoRepo] at hp
    rcases hp with rfl | rfl
    · decide
    · decide
  · intro x
    constructor
    · intro hx
      simp at hx
      rcases hx with rfl | rfl
      · exact Reaches.head (by simp)
      · exact @Reaches.step demoRepo [1] 1 2 (Reaches.head (by simp))
          ⟨demoC1, by decide, by decide⟩
    · intro hr
      induction hr with
      | head hh =>
        simp at hh
        subst hh
        simp
      | step _ hps ih =>
        obtain ⟨c, hl, hp⟩ := hps
        have hm := repoLookup_mem hl
        simp [demoRepo] at hm
        rcases hm with ⟨rfl, rfl⟩ | ⟨rfl, rfl⟩
        · simp [demoC1] at hp
          subst hp
          simp
        · simp [demoC2] at hp
  · intro x hx
    simp at hx
    rcases hx with rfl | rfl
    · decide
    · decide

/-- Witness for the ordering claim: the same repository's result,
`[demoC2, demoC1]`, is sorted newest-first. -/
theorem get_latest_commits_sorted_witness :
    ([demoC2, demoC1] : List Commit).Pairwise
      (fun a b => b.commit_time ≤ a.commit_time) :=
  get_latest_commits_sorted demoRepo [1] 10 [demoC2, demoC1] (by
    simp [get_latest_commits, bfsLoop, repoLookup, demoRepo, demoC1, demoC2]
    decide)

/-! ## Escaping lemmas -/

theorem replaceChar_append (needle : Char) (rep : List Char) :
    ∀ a b : List Char, replaceChar needle rep (a ++ b) =
      replaceChar needle rep a ++ replaceChar needle rep b := by
  intro a b
  induction a with
  | nil => simp [replaceChar]
  | cons c rest ih =>
    simp [replaceChar, ih]

theorem xmlEscape_cons (c : Char) (s : List Char) :
    xmlEscape (c :: s) = escapeCharSpec c ++ xmlEscape s := by
  by_cases h1 : c = '&'
  · subst h1
    simp [xmlEscape, escapeCharSpec, replaceChar, replaceChar_append]
  · by_cases h2 : c = '<'
    · subst h2
      simp [xmlEscape, escapeCharSpec, replaceChar, replaceChar_append]
    · by_cases h3 : c = '>'
      · subst h3
        simp [xmlEscape, escapeCharSpec, replaceChar, replaceChar_append]
      · simp [xmlEscape, escapeCharSpec, replaceChar, replaceChar_append, h1, h2, h3]

theorem attrEscape_cons (c : Char) (s : List Char) :
    attrEscape (c :: s) = attrCharSpec c ++ attrEscape s := by
  by_cases h1 : c = '&'
  · subst h1
    simp [attrEscape, xmlEscape, escapeCharSpec, attrCharSpec,
      replaceChar, replaceChar_append]
  · by_cases h2 : c = '<'
    · subst h2
      simp [attrEscape, xmlEscape, escapeCharSpec, attrCharSpec,
        replaceChar, replaceChar_append]
    · by_cases h3 : c = '>'
      · subst h3
        simp [attrEscape, xmlEscape, escapeCharSpec, attrCharSpec,
          replaceChar, replaceChar_append]
      · by_cases h4 : c = '"'
        · subst h4
          simp [attrEscape, xmlEscape, escapeCharSpec, attrCharSpec,
            replaceChar, replaceChar_append]
        · simp [attrEscape, xmlEscape, escapeCharSpec, attrCharSpec,
            replaceChar, replaceChar_append, h1, h2, h3, h4]

theorem unescape_xmlEscape (s : List Char) :
    unescapeXml (xmlEscape s) = some s := by
  induction s with
  | nil => simp [xmlEscape, replaceChar, unescapeXml]
  | cons c rest ih =>
    rw [xmlEscape_cons]
    by_cases h1 : c = '&'
    · subst h1
      simp [escapeCharSpec, unescapeXml, ih]
    · by_cases h2 : c = '<'
      · subst h2
        simp [escapeCharSpec, unescapeXml, ih]
      · by_cases h3 : c = '>'
        · subst h3
          simp [escapeCharSpec, unescapeXml, ih]
        · simp [escapeCharSpec, unescapeXml, ih, h1, h2, h3]

theorem unescape_attrEscape (s : List Char) :
    unescapeXml (attrEscape s) = some s := by
  induction s with
  | nil => simp [attrEscape, xmlEscape, replaceChar, unescapeXml]
  | cons c rest ih =>
    rw [attrEscape_cons]
    by_cases h1 : c = '&'
    · subst h1
      simp [attrCharSpec, unescapeXml, ih]
    · by_cases h2 : c = '<'
      · subst h2
        simp [attrCharSpec, unescapeXml, ih]
      · by_cases h3 : c = '>'
        · subst h3
          simp [attrCharSpec, unescapeXml, ih]
        · by_cases h4 : c = '"'
          · subst h4
            simp [attrCharSpec, unescapeXml, ih]
          · simp [attrCharSpec, unescapeXml, ih, h1, h2, h3, h4]

theorem xmlEscape_no_structural (s : List Char) :
    ∀ c ∈ xmlEscape s, c ≠ '<' ∧ c ≠ '>' := by
  induction s with
  | nil =>
    intro c hc
    simp [xmlEscape, replaceChar] at hc
  | cons a rest ih =>
    intro c hc
    rw [xmlEscape_cons] at hc
    rcases List.mem_append.mp hc with hc' | hc'
    · by_cases h1 : a = '&'
      · subst h1
        simp [escapeCharSpec] at hc'
        rcases hc' with rfl | rfl | rfl | rfl | rfl <;> decide
      · by_cases h2 : a = '<'
        · subst h2
          simp [escapeCharSpec] at hc'
          rcases hc' with rfl | rfl | rfl | rfl <;> decide
        · by_cases h3 : a = '>'
          · subst h3
            simp [escapeCharSpec] at hc'
            rcases hc' with rfl | rfl | rfl | rfl <;> decide
          · simp [escapeCharSpec, h1, h2, h3] at hc'
            subst hc'
            exact ⟨h2, h3⟩
    · exact ih c hc'

theorem attrEscape_no_structural (s : List Char) :
    ∀ c ∈ attrEscape s, c ≠ '<' ∧ c ≠ '>' ∧ c ≠ '"' := by
  induction s with
  | nil =>
    intro c hc
    simp [attrEscape, xmlEscape, replaceChar] at hc
  | cons a rest ih =>
    intro c hc
    rw [attrEscape_cons] at hc
    rcases List.mem_append.mp hc with hc' | hc'
    · by_cases h1 : a = '&'
      · subst h1
        simp [attrCharSpec] at hc'
        rcases hc' with rfl | rfl | rfl | rfl | rfl <;> decide
      · by_cases h2 : a = '<'
        · subst h2
          simp [attrCharSpec] at hc'
          rcases hc' with rfl | rfl | rfl | rfl <;> decide
        · by_cases h3 : a = '>'
          · subst h3
            simp [attrCharSpec] at hc'
            rcases hc' with rfl | rfl | rfl | rfl <;> decide
          · by_cases h4 : a = '"'
            · subst h4
              simp [attrCharSpec] at hc'
              rcases hc' with rfl | rfl | rfl | rfl | rfl | rfl <;> decide
            · simp [attrCharSpec, h1, h2, h3, h4] at hc'
              subst hc'
              exact ⟨h2, h3, h4⟩
    · exact ih c hc'

/-- C5: escaping round-trip and structural safety.  For every string, the
content escape used for titles, author names and content round-trips
through an XML text parser, the attribute escape used for the link value
does too, the escaped content contains no raw `<` or `>`, and the escaped
attribute value additionally contains no raw `"`. -/
theorem escape_roundtrip_structural (s : List Char) :
    unescapeXml (xmlEscape s) = some s ∧
    unescapeXml (attrEscape s) = some s ∧
    (∀ c ∈ xmlEscape s, c ≠ '<' ∧ c ≠ '>') ∧
    (∀ c ∈ attrEscape s, c ≠ '<' ∧ c ≠ '>' ∧ c ≠ '"') :=
  ⟨unescape_xmlEscape s, unescape_attrEscape s,
    xmlEscape_no_structural s, attrEscape_no_structural s⟩

/-! ## Commit author hook -/

/-- C10: `GitCommitsAtomBuilder.get_entry_author` computes
`strip(splitBeforeLt(author))` by definition; when the author line
contains no `<` at all, the split is the identity, so the hook returns
the entire author line with leading and trailing whitespace trimmed (it
is total, and its result is the empty string exactly when the trimmed
line is empty). -/
theorem get_entry_author_no_lt (commit : Commit)
    (h : '<' ∉ commit.author) :
    GitCommitsAtomBuilder.get_entry_author commit = pyStrip commit.author := by
  unfold GitCommitsAtomBuilder.get_entry_author splitBeforeLt
  congr 1
  apply List.takeWhile_eq_self_iff.mpr
  intro a ha
  simp only [Bool.not_eq_true', beq_eq_false_iff_ne, ne_eq]
  intro heq
  subst heq
  exact h ha

/-- Witness for the author-hook claim at the author line `" Ada Lovelace "`. -/
theorem get_entry_author_no_lt_witness :
    GitCommitsAtomBuilder.get_entry_author
      ⟨7, [], 0, 0, [' ', 'A', 'd', 'a', ' '], []⟩ =
      pyStrip [' ', 'A', 'd', 'a', ' '] :=
  get_entry_author_no_lt ⟨7, [], 0, 0, [' ', 'A', 'd', 'a', ' '], []⟩ (by decide)

/-! ## Default hook bodies -/

/-- C3: the default entry-id resolution returns exactly the entry-link
hook's value whenever that value is a non-empty string, and raises
`NotImplementedError` whenever that hook yields no value; the id never
comes from any other source. -/
theorem default_get_entry_id_spec {E : Type} (get_entry_link : E → Option String)
    (entry : E) :
    (∀ s : String, get_entry_link entry = some s → s ≠ "" →
      AtomBuilder.default_get_entry_id get_entry_link entry = Except.ok s) ∧
    (get_entry_link entry = none →
      AtomBuilder.default_get_entry_id get_entry_link entry =
        Except.error AtomError.notImplementedError) := by
  constructor
  · intro s hs hne
    have hemp : s.isEmpty = false := by
      rw [Bool.eq_false_iff]
      intro htrue
      exact hne ((String.isEmpty_iff s).mp htrue)
    unfold AtomBuilder.default_get_entry_id
    rw [hs]
    simp [pyTruthy, hemp]
  · intro h0
    unfold AtomBuilder.default_get_entry_id
    rw [h0]
    simp [pyTruthy]

/-- Witness for the default entry-id claim: a non-empty link is returned
verbatim; an absent link raises. -/
theorem default_get_entry_id_witness :
    AtomBuilder.default_get_entry_id (fun _ : Nat => some "u") 0 = Except.ok "u" ∧
    AtomBuilder.default_get_entry_id (fun _ : Nat => none) 0 =
      Except.error AtomError.notImplementedError :=
  ⟨(default_get_entry_id_spec (fun _ : Nat => some "u") 0).1 "u" rfl (by decide),
    (default_get_entry_id_spec (fun _ : Nat => none) 0).2 rfl⟩

/-- Greatest element computed by Python `max`'s fold. -/
theorem pyMax_foldl_spec (x : PyDateTime) (l : List PyDateTime) :
    (l.foldl (fun acc y => if acc.seconds < y.seconds then y else acc) x) ∈ x :: l ∧
    x.seconds ≤ (l.foldl (fun acc y => if acc.seconds < y.seconds then y else acc) x).seconds ∧
    ∀ y ∈ l, y.seconds ≤
      (l.foldl (fun acc y => if acc.seconds < y.seconds then y else acc) x).seconds := by
  induction l generalizing x with
  | nil =>
    refine ⟨List.mem_cons_self _ _, le_refl _, ?_⟩
    intro y hy
    simp at hy
  | cons z t ih =>
    simp only [List.foldl_cons]
    obtain ⟨hmem, hx, hall⟩ := ih (if x.seconds < z.seconds then z else x)
    have hxle : x.seconds ≤ (if x.seconds < z.seconds then z else x).seconds := by
      split
      · omega
      · exact le_refl _
    have hzle : z.seconds ≤ (if x.seconds < z.seconds then z else x).seconds := by
      split
      · exact le_refl _
      · omega
    refine ⟨?_, le_trans hxle hx, ?_⟩
    · rcases List.mem_cons.mp hmem with heq | hmem'
      · rw [heq]
        split
        · exact List.mem_cons_of_mem _ (List.mem_cons_self _ _)
        · exact List.mem_cons_self _ _
      · exact List.mem_cons_of_mem _ (List.mem_cons_of_mem _ hmem')
    · intro y hy
      rcases List.mem_cons.mp hy with rfl | hy'
      · exact le_trans hzle hx
      · exact hall y hy'

/-- C4: the default feed-updated hook returns the maximum entry-updated
instant over the entries returned by `get_entries()`, and when there are
zero entries (and no override) the call raises — Python's `max()` on an
empty sequence raises `ValueError` — rather than returning any default. -/
theorem default_get_feed_updated_spec {E : Type} (get_entries : List E)
    (get_entry_updated : E → PyDateTime) :
    (get_entries = [] →
      AtomBuilder.default_get_feed_updated get_entries get_entry_updated =
        Except.error AtomError.valueError) ∧
    (get_entries ≠ [] → ∃ m,
      AtomBuilder.default_get_feed_updated get_entries get_entry_updated =
        Except.ok m ∧
      m ∈ get_entries.map get_entry_updated ∧
      ∀ e ∈ get_entries, (get_entry_updated e).seconds ≤ m.seconds) := by
  constructor
  · intro h0
    subst h0
    rfl
  · intro hne
    cases hes : get_entries with
    | nil => exact absurd hes hne
    | cons e rest =>
      refine ⟨(rest.map get_entry_updated).foldl
        (fun acc y => if acc.seconds < y.seconds then y else acc)
        (get_entry_updated e), ?_, ?_, ?_⟩
      · unfold AtomBuilder.default_get_feed_updated pyMaxDateTime
        rfl
      · simpa using (pyMax_foldl_spec (get_entry_updated e) (rest.map get_entry_updated)).1
      · intro e' he'
        obtain ⟨-, hx, hall⟩ :=
          pyMax_foldl_spec (get_entry_updated e) (rest.map get_entry_updated)
        rcases List.mem_cons.mp he' with rfl | he''
        · exact hx
        · exact hall _ (List.mem_map.mpr ⟨e', he'', rfl⟩)

/-- Witness for the default feed-updated claim: raises on zero entries and
returns the newest instant on a two-entry list. -/
theorem default_get_feed_updated_witness :
    (AtomBuilder.default_get_feed_updated ([] : List Nat)
      (fun n => ⟨(n : Int), 0⟩) = Except.error AtomError.valueError) ∧
    ∃ m, AtomBuilder.default_get_feed_updated ([5, 9] : List Nat)
        (fun n => ⟨(n : Int), 0⟩) = Except.ok m ∧
      m ∈ ([5, 9] : List Nat).map (fun n => (⟨(n : Int), 0⟩ : PyDateTime)) ∧
      ∀ e ∈ ([5, 9] : List Nat), ((⟨(e : Int), 0⟩ : PyDateTime)).seconds ≤ m.seconds :=
  ⟨(default_get_feed_updated_spec ([] : List Nat) (fun n => ⟨(n : Int), 0⟩)).1 rfl,
    (default_get_feed_updated_spec ([5, 9] : List Nat)
      (fun n => ⟨(n : Int), 0⟩)).2 (by simp)⟩

/-! ## Empty-string optional values -/

/-- C9: an empty string returned by an optional hook behaves as an absent
value: with an empty-string entry link, author and html content, the
entry's fragment block consists of exactly the id, title and updated
fragments (no link, author or content element); the default entry-id
fallback raises `NotImplementedError` on an empty-string link rather
than using it; and the default html-content fallback yields no value for
an empty-string text content. -/
theorem empty_string_treated_absent {E : Type} (b : AtomBuilder E) (entry : E)
    (eid : String)
    (hid : b.get_entry_id entry = Except.ok eid)
    (hlink : b.get_entry_link entry = some "")
    (hauthor : b.get_entry_author entry = some "")
    (hcontent : b.get_entry_html_content entry = some "")
    (htext : b.get_entry_text_content entry = some "") :
    AtomBuilder.entryFragments b entry = Except.ok
      ["  <entry>\n    <id>", AtomBuilder.escape eid, "</id>\n    <title>",
        AtomBuilder.escape (b.get_entry_title entry), "</title>\n    <updated>",
        (b.get_entry_updated entry).isoformat, "</updated>\n", "  </entry>\n"] ∧
    AtomBuilder.default_get_entry_id b.get_entry_link entry =
      Except.error AtomError.notImplementedError ∧
    AtomBuilder.default_get_entry_html_content b.get_entry_text_content entry =
      none := by
  have hpt : pyTruthy (some "") = false := by decide
  refine ⟨?_, ?_, ?_⟩
  · unfold AtomBuilder.entryFragments
    rw [hid, hlink, hauthor, hcontent]
    simp [hpt]
  · unfold AtomBuilder.default_get_entry_id
    rw [hlink]
    simp [hpt]
  · unfold AtomBuilder.default_get_entry_html_content
    rw [htext]
    simp [hpt]

/-- Witness for the empty-string claim on a concrete builder. -/
theorem empty_string_treated_absent_witness :
    AtomBuilder.entryFragments demoEmptyHooks () = Except.ok
      ["  <entry>\n    <id>", AtomBuilder.escape "E", "</id>\n    <title>",
        AtomBuilder.escape (demoEmptyHooks.get_entry_title ()), "</title>\n    <updated>",
        (demoEmptyHooks.get_entry_updated ()).isoformat, "</updated>\n", "  </entry>\n"] ∧
    AtomBuilder.default_get_entry_id demoEmptyHooks.get_entry_link () =
      Except.error AtomError.notImplementedError ∧
    AtomBuilder.default_get_entry_html_content
      demoEmptyHooks.get_entry_text_content () = none :=
  empty_string_treated_absent demoEmptyHooks () "E" rfl rfl rfl rfl rfl

/-! ## One-shot versus fragment-by-fragment serialization -/

theorem concatList_append (a b : List String) :
    concatList (a ++ b) = concatList a ++ concatList b := by
  induction a with
  | nil => simp [concatList]
  | cons s rest ih => simp [concatList, ih, String.append_assoc]

theorem concatList_ite (c : Prop) [Decidable c] (l : List String) :
    concatList (if c then l else []) = if c then concatList l else "" := by
  split <;> rfl

theorem specEntryXml_eq_fragments {E : Type} (b : AtomBuilder E) (entry : E) :
    specEntryXml b entry = (AtomBuilder.entryFragments b entry).map concatList := by
  unfold specEntryXml AtomBuilder.entryFragments
  cases hid : b.get_entry_id entry with
  | error err => simp [hid, Except.map]
  | ok eid =>
    simp only [hid, Except.map, Except.bind, Except.pure, pure, bind, Except.ok.injEq]
    simp only [List.append_eq, List.nil_append, concatList_append, concatList_ite,
      concatList, String.append_assoc, String.append_empty]

theorem specEntriesXml_eq_fragments {E : Type} (b : AtomBuilder E) :
    ∀ es : List E, specEntriesXml b es =
      (AtomBuilder.entriesFragments b es).map
        (fun parts => concatList parts.flatten) := by
  intro es
  induction es with
  | nil => rfl
  | cons e rest ih =>
    unfold specEntriesXml AtomBuilder.entriesFragments
    rw [specEntryXml_eq_fragments]
    cases hy : AtomBuilder.entryFragments b e with
    | error err =>
      simp [hy, Except.map, Except.bind, bind, Except.pure, pure]
    | ok y =>
      rw [ih]
      cases hys : AtomBuilder.entriesFragments b rest with
      | error err =>
        simp [hy, hys, Except.map, Except.bind, bind, Except.pure, pure]
      | ok ys =>
        simp [hy, hys, Except.map, Except.bind, bind, Except.pure, pure,
          concatList_append]

/-- C8: the one-shot and the incremental forms of the output coincide:
`build` is by definition the concatenation of the `build_fragments`
stream, and it equals the spec's single concatenated-value assembly of
the whole document. -/
theorem build_one_shot_eq_fragments {E : Type} (b : AtomBuilder E) :
    AtomBuilder.build b = specDocument b ∧
    AtomBuilder.build b = (AtomBuilder.build_fragments b).map concatList := by
  refine ⟨?_, rfl⟩
  unfold AtomBuilder.build AtomBuilder.build_fragments specDocument
  cases hfid : b.get_feed_id with
  | error err => simp [hfid, Except.map, Except.bind, bind]
  | ok fid =>
    cases hfu : b.get_feed_updated with
    | error err =>
      simp [hfid, hfu, Except.map, Except.bind, bind, Except.pure, pure]
    | ok fupd =>
      rw [specEntriesXml_eq_fragments]
      cases hes : AtomBuilder.entriesFragments b b.get_entries with
      | error err =>
        simp [hfid, hfu, hes, Except.map, Except.bind, bind, Except.pure, pure]
      | ok parts =>
        simp only [hfid, hfu, hes, Except.map, Except.bind, bind, Except.pure, pure,
          Except.ok.injEq]
        simp only [List.append_eq, List.nil_append, concatList_append, concatList_ite,
          concatList, String.append_assoc, String.append_empty]

/-! ## Hook-call counting -/

/-- Counterexample to the single-consultation claim: on a concrete
one-entry builder with default `get_feed_updated`, the entries hook is
consulted twice per build and the entry's updated hook is called twice —
not once. -/
theorem build_hook_single_call_cex :
    ¬ ((GitShapedBuilder.buildEvents demoTraced).count HookEvent.entries = 1 ∧
        (GitShapedBuilder.buildEvents demoTraced).count (HookEvent.entryUpdated 0) = 1) ∧
    (GitShapedBuilder.buildEvents demoTraced).count HookEvent.entries = 2 ∧
    (GitShapedBuilder.buildEvents demoTraced).count (HookEvent.entryUpdated 0) = 2 := by
  decide

/-- C6 (amended): hook calls happen in document order, but the default
feed-updated hook makes its fragment trigger a cascade — one entries
call plus one per-entry updated call — so over a whole build the entries
hook is consulted exactly twice (once inside the default
`get_feed_updated`, once heading the entry loop) and each entry's
updated hook runs exactly twice. -/
theorem buildEvents_trace {E : Type} (b : GitShapedBuilder E)
    (hlink : pyTruthy b.feed_link = true) (hne : b.entries ≠ []) :
    GitShapedBuilder.buildEvents b =
      ([HookEvent.feedId, HookEvent.feedLink, HookEvent.feedTitle,
        HookEvent.feedUpdated, HookEvent.entries]
        ++ (List.range b.entries.length).map HookEvent.entryUpdated
        ++ [HookEvent.feedLink, HookEvent.entries]
        ++ b.entries.enum.flatMap (fun p =>
            [HookEvent.entryId p.1, HookEvent.entryTitle p.1,
              HookEvent.entryUpdated p.1, HookEvent.entryLink p.1,
              HookEvent.entryAuthor p.1, HookEvent.entryHtmlContent p.1,
              HookEvent.entryTextContent p.1])) ∧
    (GitShapedBuilder.buildEvents b).count HookEvent.entries = 2 := by
  have htrace : GitShapedBuilder.buildEvents b =
      ([HookEvent.feedId, HookEvent.feedLink, HookEvent.feedTitle,
        HookEvent.feedUpdated, HookEvent.entries]
        ++ (List.range b.entries.length).map HookEvent.entryUpdated
        ++ [HookEvent.feedLink, HookEvent.entries]
        ++ b.entries.enum.flatMap (fun p =>
            [HookEvent.entryId p.1, HookEvent.entryTitle p.1,
              HookEvent.entryUpdated p.1, HookEvent.entryLink p.1,
              HookEvent.entryAuthor p.1, HookEvent.entryHtmlContent p.1,
              HookEvent.entryTextContent p.1])) := by
    unfold GitShapedBuilder.buildEvents GitShapedBuilder.m_feed_id
      GitShapedBuilder.m_feed_link GitShapedBuilder.m_feed_updated
      GitShapedBuilder.m_entries GitShapedBuilder.entryEvents
      GitShapedBuilder.m_entry_html_content
    cases hes : b.entries with
    | nil => exact absurd hes hne
    | cons e rest =>
      simp [hlink, hes, pyMaxDateTime]
  refine ⟨htrace, ?_⟩
  rw [htrace]
  have h1 : ((List.range b.entries.length).map HookEvent.entryUpdated).count
      HookEvent.entries = 0 := by
    apply List.count_eq_zero.mpr
    simp
  have h2 : (b.entries.enum.flatMap (fun p =>
      [HookEvent.entryId p.1, HookEvent.entryTitle p.1,
        HookEvent.entryUpdated p.1, HookEvent.entryLink p.1,
        HookEvent.entryAuthor p.1, HookEvent.entryHtmlContent p.1,
        HookEvent.entryTextContent p.1])).count HookEvent.entries = 0 := by
    apply List.count_eq_zero.mpr
    simp [List.mem_flatMap]
  simp [List.count_append, h1, h2, List.count_cons]

/-- Witness for the amended hook-call claim on the concrete one-entry
builder. -/
theorem buildEvents_trace_witness :
    GitShapedBuilder.buildEvents demoTraced =
      ([HookEvent.feedId, HookEvent.feedLink, HookEvent.feedTitle,
        HookEvent.feedUpdated, HookEvent.entries]
        ++ (List.range demoTraced.entries.length).map HookEvent.entryUpdated
        ++ [HookEvent.feedLink, HookEvent.entries]
        ++ demoTraced.entries.enum.flatMap (fun p =>
            [HookEvent.entryId p.1, HookEvent.entryTitle p.1,
              HookEvent.entryUpdated p.1, HookEvent.entryLink p.1,
              HookEvent.entryAuthor p.1, HookEvent.entryHtmlContent p.1,
              HookEvent.entryTextContent p.1])) ∧
    (GitShapedBuilder.buildEvents demoTraced).count HookEvent.entries = 2 :=
  buildEvents_trace demoTraced (by decide) (by decide)

/-- Witness for the escaping claim at the string `a<b&"`, with the
membership hypotheses of the structural conjuncts discharged at the
ampersand the escape inserts. -/
theorem escape_roundtrip_structural_witness :
    unescapeXml (xmlEscape ['a', '<', 'b', '&', '"']) =
      some ['a', '<', 'b', '&', '"'] ∧
    unescapeXml (attrEscape ['a', '<', 'b', '&', '"']) =
      some ['a', '<', 'b', '&', '"'] ∧
    ('&' ≠ '<' ∧ '&' ≠ '>') ∧
    ('&' ≠ '<' ∧ '&' ≠ '>' ∧ '&' ≠ '"') :=
  ⟨(escape_roundtrip_structural ['a', '<', 'b', '&', '"']).1,
    (escape_roundtrip_structural ['a', '<', 'b', '&', '"']).2.1,
    (escape_roundtrip_structural ['a', '<', 'b', '&', '"']).2.2.1 '&' (by decide),
    (escape_roundtrip_structural ['a', '<', 'b', '&', '"']).2.2.2 '&' (by decide)⟩
